import Mathlib

/-!
Verification of the change-analysis engine of auto-pr (internal/git).

The Go sources are embedded shallowly: strings become lists of characters,
each external `git` invocation becomes a field of an explicit environment
record (`GitEnv`), and fallible operations return `Except GitError`.
Every definition mirrors the corresponding Go function from
`internal/git/analyzer.go`, `internal/git/commits.go` and `pkg/types`.
-/

namespace AutoPr

/-- Strings are modelled as lists of characters (Go byte strings of the
`git` plumbing output are ASCII in this scope). -/
abbrev Str := List Char

/-- Build a `Str` from a Lean string literal. -/
def str (s : String) : Str := s.data

/-- The ASCII fragment of Go `unicode.IsSpace`, which is all that can occur
in `git` plumbing output. -/
def isSpaceChar (c : Char) : Bool :=
  c == ' ' || c == '\t' || c == '\n' || c == '\r'

/-- Drop leading space characters (the left half of Go `strings.TrimSpace`). -/
def trimLeft : Str → Str
  | [] => []
  | c :: cs => if isSpaceChar c then trimLeft cs else c :: cs

/-- Drop trailing space characters. -/
def trimRight (s : Str) : Str := (trimLeft s.reverse).reverse

/-- Go `strings.TrimSpace`. -/
def trim (s : Str) : Str := trimRight (trimLeft s)

/-- Go `strings.Split(s, sep)` for a one-character separator. -/
def splitOnChar (sep : Char) : Str → List Str
  | [] => [[]]
  | c :: cs =>
    match splitOnChar sep cs with
    | [] => [[]]
    | h :: t => if c == sep then [] :: h :: t else (c :: h) :: t

/-- Inverse of `splitOnChar`: join lines with a separator character. -/
def joinLines (sep : Char) : List Str → Str
  | [] => []
  | [l] => l
  | l :: l2 :: ls => l ++ sep :: joinLines sep (l2 :: ls)

/-- Number of occurrences of a character (Go `strings.Count` for a
one-character substring). -/
def countChar (c : Char) (s : Str) : Nat :=
  (s.filter (fun x => x == c)).length

/-- Go `strings.Contains` for a one-character substring. -/
def hasChar (c : Char) (s : Str) : Bool :=
  s.any (fun x => x == c)

/-- Accumulator pass of `fields`. -/
def fieldsAux : Str → Str → List Str
  | acc, [] => if acc = [] then [] else [acc.reverse]
  | acc, c :: cs =>
    if isSpaceChar c then
      if acc = [] then fieldsAux [] cs else acc.reverse :: fieldsAux [] cs
    else fieldsAux (c :: acc) cs

/-- Go `strings.Fields`: split around runs of whitespace, no empty fields. -/
def fields (s : Str) : List Str := fieldsAux [] s

/-- The numeric value of a digit run, `none` when a character is not a
digit or the run is empty. -/
def digitsToNat? : Str → Option Nat
  | [] => none
  | [c] => if c.isDigit then some (c.toNat - '0'.toNat) else none
  | c :: cs =>
    if c.isDigit then
      (digitsToNat? cs).map (fun n => (c.toNat - '0'.toNat) * 10 ^ cs.length + n)
    else none

/-- Go `strconv.ParseInt(s, 10, 64)` restricted to the values in scope
(timestamps, far from the 64-bit bounds): optional sign then digits. -/
def parseInt? : Str → Option Int
  | [] => none
  | '+' :: rest => (digitsToNat? rest).map Int.ofNat
  | '-' :: rest => (digitsToNat? rest).map (fun n => -(n : Int))
  | s => (digitsToNat? s).map Int.ofNat

/-- `pkg/types.ChangeStatus`. -/
inductive ChangeStatus where
  | added
  | modified
  | deleted
  | renamed
  | copied
  | untracked
deriving DecidableEq, Repr

/-- `pkg/types.FileChange`. Addition and deletion counts are non-negative
in every producing path, so they are `Nat`. -/
structure FileChange where
  path : Str
  status : ChangeStatus
  additions : Nat
  deletions : Nat
  isBinary : Bool
deriving DecidableEq, Repr

/-- `pkg/types.CommitInfo`; `date` is the unix timestamp `time.Unix` is
applied to. -/
structure CommitInfo where
  hash : Str
  message : Str
  author : Str
  email : Str
  date : Int
  files : List Str
deriving DecidableEq, Repr

/-- `pkg/types.DiffSummary`. -/
structure DiffSummary where
  totalFiles : Nat
  totalLines : Nat
  additions : Nat
  deletions : Nat
  fileChanges : List FileChange
  commitHistory : List CommitInfo
deriving DecidableEq, Repr

/-- The errors the embedded operations construct.  `baseBranchNotFound`
stands for the `fmt.Errorf("base branch %s not found", ...)` of
`GetCommitsSinceBase`, the two query-failure constructors for the generic
wrapped errors of `GetBranchDiff` and `getBranchFileChanges` and the log
fallback of `GetCommitsSinceBase`. -/
inductive GitError where
  | baseBranchNotFound (branch : Str)
  | commitsQueryFailed
  | branchDiffFailed
  | branchFileChangesFailed
deriving DecidableEq, Repr

/-- The external world of one `Analyzer`: each field is the outcome of one
shape of `git` invocation (`none` stands for a non-zero exit).
`fileStats` models `getFileStats`, whose own failure path already degrades
to `(0, 0)` inside the Go function, so it is total here. -/
structure GitEnv where
  verifyRef : Str → Bool
  logRange : Str → Option Str
  diffStatRange : Str → Option Str
  nameStatusRange : Str → Option Str
  fileStats : Str → Nat × Nat
  symbolicRefOriginHead : Option Str
  showRefOriginBranch : Str → Bool
  now : Int

/-- What `os.Stat` can find at the `.git` path. -/
inductive FsEntry where
  | dir
  | file
  | absent
deriving DecidableEq, Repr

/-- `os.Stat` succeeds exactly when the entry exists. -/
def statSucceeds : FsEntry → Bool
  | FsEntry.absent => false
  | _ => true

/-- `stat.IsDir()`. -/
def statIsDir : FsEntry → Bool
  | FsEntry.dir => true
  | _ => false

/-- `IsGitRepository` (analyzer.go:33-45): the first `os.Stat` branch
returns `stat.IsDir()` whenever the stat succeeds, so the second stat of
the same path (the worktree-file check) only runs when the first failed
and can never take its `true` branch. -/
def IsGitRepository (gitDirEntry : FsEntry) : Bool :=
  if statSucceeds gitDirEntry then statIsDir gitDirEntry
  else if statSucceeds gitDirEntry then true
  else false

/-- `line[0] != ' ' && line[0] != '?'` (analyzer.go:167). -/
def stagedCode (line : Str) : Bool :=
  line.getD 0 ' ' != ' ' && line.getD 0 ' ' != '?'

/-- `line[1] != ' ' && line[1] != '?'` (analyzer.go:170). -/
def unstagedCode (line : Str) : Bool :=
  line.getD 1 ' ' != ' ' && line.getD 1 ' ' != '?'

/-- `line[0] == '?' && line[1] == '?'` (analyzer.go:173). -/
def untrackedCode (line : Str) : Bool :=
  line.getD 0 ' ' == '?' && line.getD 1 ' ' == '?'

/-- The three path lists `getFileStatuses` builds. -/
structure FileStatuses where
  staged : List Str
  unstaged : List Str
  untracked : List Str
deriving DecidableEq, Repr

/-- `getFileStatuses` (analyzer.go:149-179) over the scanned lines of
`git status --porcelain=v1` output: lines shorter than three characters
are skipped, the two status characters place `line[3:]` in the lists. -/
def getFileStatuses : List Str → FileStatuses
  | [] => ⟨[], [], []⟩
  | line :: rest =>
    let r := getFileStatuses rest
    if line.length < 3 then r
    else
      { staged := (if stagedCode line then [line.drop 3] else []) ++ r.staged
        unstaged := (if unstagedCode line then [line.drop 3] else []) ++ r.unstaged
        untracked := (if untrackedCode line then [line.drop 3] else []) ++ r.untracked }

/-- The fixed candidate list of `getBaseBranch` (analyzer.go:137). -/
def baseBranchCandidates : List Str := [str "main", str "master", str "develop"]

/-- The `for` loop of `getBaseBranch`: the first candidate whose
remote-tracking ref `show-ref` verifies. -/
def firstExistingCandidate (env : GitEnv) : List Str → Option Str
  | [] => none
  | b :: rest =>
    if env.showRefOriginBranch b then some b else firstExistingCandidate env rest

/-- The candidate scan and final `return "main", nil` of `getBaseBranch`. -/
def baseBranchFallback (env : GitEnv) : Except GitError Str :=
  match firstExistingCandidate env baseBranchCandidates with
  | some b => Except.ok b
  | none => Except.ok (str "main")

/-- `getBaseBranch` (analyzer.go:124-146).  Every Go return site carries a
nil error, hence the `Except.ok` on every path. -/
def getBaseBranch (env : GitEnv) : Except GitError Str :=
  match env.symbolicRefOriginHead with
  | some output =>
    let branch := trim output
    let parts := splitOnChar '/' branch
    if 0 < parts.length then Except.ok (parts.getLastD []) else baseBranchFallback env
  | none => baseBranchFallback env

/-- `mapGitStatus` (analyzer.go:460-477): a `switch` on the first byte of
the status code.  Call sites only pass non-empty fields of a status line
(the Go code would panic on an empty string). -/
def mapGitStatus (gitStatus : Str) : ChangeStatus :=
  match gitStatus with
  | [] => ChangeStatus.modified
  | c :: _ =>
    if c = 'A' then ChangeStatus.added
    else if c = 'M' then ChangeStatus.modified
    else if c = 'D' then ChangeStatus.deleted
    else if c = 'R' then ChangeStatus.renamed
    else if c = 'C' then ChangeStatus.copied
    else if c = '?' then ChangeStatus.untracked
    else ChangeStatus.modified

/-- Go `strings.HasSuffix`. -/
def hasSuffix (s suf : Str) : Bool :=
  suf.length ≤ s.length && s.drop (s.length - suf.length) == suf

/-- The extension allow-list of `isBinaryFile` (analyzer.go:414-419); the
Go map's iteration order does not matter because only the disjunction of
the suffix checks is used. -/
def binaryExtensions : List Str :=
  [str ".jpg", str ".jpeg", str ".png", str ".gif",
   str ".pdf", str ".zip", str ".tar", str ".gz",
   str ".exe", str ".dll", str ".so", str ".dylib",
   str ".bin", str ".dat", str ".db"]

/-- `isBinaryFile` (analyzer.go:412-428). -/
def isBinaryFile (filepath : Str) : Bool :=
  binaryExtensions.any (fun ext => hasSuffix (filepath.map Char.toLower) ext)

/-- `parseNameStatus` (analyzer.go:344-379) over the scanned lines of a
`--name-status` listing.  `stats` is the `getFileStats` oracle (already
degraded to `(0, 0)` on failure) and `isBin` the binary classifier. -/
def parseNameStatus (stats : Str → Nat × Nat) (isBin : Str → Bool) :
    List Str → List FileChange
  | [] => []
  | l :: rest =>
    let t := trim l
    if t = [] then parseNameStatus stats isBin rest
    else
      let parts := fields t
      if parts.length < 2 then parseNameStatus stats isBin rest
      else
        { path := parts.getD 1 []
          status := mapGitStatus (parts.getD 0 [])
          additions := (stats (parts.getD 1 [])).1
          deletions := (stats (parts.getD 1 [])).2
          isBinary := isBin (parts.getD 1 []) } :: parseNameStatus stats isBin rest

/-- The merged entry `mergeFileChanges` builds for a repeated path
(analyzer.go:437-443): sums, `||`, and the later status. -/
def mergeTwo (old c : FileChange) : FileChange :=
  { path := c.path
    status := c.status
    additions := old.additions + c.additions
    deletions := old.deletions + c.deletions
    isBinary := old.isBinary || c.isBinary }

/-- One step of the `fileMap` of `mergeFileChanges`, as an association
list keyed by path: update the present entry or add a new one. -/
def insertChange : List FileChange → FileChange → List FileChange
  | [], c => [c]
  | e :: rest, c =>
    if e.path == c.path then mergeTwo e c :: rest else e :: insertChange rest c

/-- `mergeFileChanges` (analyzer.go:431-457).  The Go map's slice-out
order is unspecified; the association list fixes insertion order, and
every claim about the result is order-insensitive. -/
def mergeFileChanges (changes : List FileChange) : List FileChange :=
  changes.foldl insertChange []

/-- Appending `*currentCommit` to `commits`, as at a header and at the end
of `parseCommitHistory`. -/
def flushCur (commits : List CommitInfo) : Option CommitInfo → List CommitInfo
  | none => commits
  | some c => commits ++ [c]

/-- The scanner loop of `parseCommitHistory` (commits.go:82-129), with the
open commit carried explicitly.  A `|`-line first flushes the open commit;
with five or more fields it opens a new one (a malformed timestamp
degrades to `now`), otherwise the open commit is kept as is.  Any other
non-blank line is appended to the open commit's files. -/
def parseCommitLoop (now : Int) :
    List Str → List CommitInfo → Option CommitInfo → List CommitInfo
  | [], commits, cur => flushCur commits cur
  | line :: rest, commits, cur =>
    let t := trim line
    if t = [] then parseCommitLoop now rest commits cur
    else if hasChar '|' t then
      let parts := splitOnChar '|' t
      if 5 ≤ parts.length then
        parseCommitLoop now rest (flushCur commits cur)
          (some { hash := parts.getD 0 []
                  message := parts.getD 1 []
                  author := parts.getD 2 []
                  email := parts.getD 3 []
                  date := (parseInt? (parts.getD 4 [])).getD now
                  files := [] })
      else parseCommitLoop now rest (flushCur commits cur) cur
    else
      match cur with
      | none => parseCommitLoop now rest commits none
      | some c => parseCommitLoop now rest commits (some { c with files := c.files ++ [t] })

/-- `parseCommitHistory` (commits.go:82-129) over the scanned lines of the
log output; `now` is `time.Now().Unix()`. -/
def parseCommitHistory (now : Int) (lines : List Str) : List CommitInfo :=
  parseCommitLoop now lines [] none

/-- The `baseBranch == ""` default shared by `GetCommitsSinceBase` and
`GetBranchDiff`. -/
def resolvedBase (baseBranch : Str) : Str :=
  if baseBranch = [] then str "main" else baseBranch

/-- `GetCommitsSinceBase` (commits.go:35-79): verify the remote-tracking
then the local ref, fail typed when neither resolves; run the log with
remote-then-local fallback; an output that trims to nothing is the empty
result. -/
def GetCommitsSinceBase (env : GitEnv) (baseBranch : Str) :
    Except GitError (List CommitInfo) :=
  let base := resolvedBase baseBranch
  if env.verifyRef (str "origin/" ++ base) || env.verifyRef base then
    match env.logRange (str "origin/" ++ base ++ str "..HEAD") with
    | some out =>
      if trim out = [] then Except.ok []
      else Except.ok (parseCommitHistory env.now (splitOnChar '\n' out))
    | none =>
      match env.logRange (base ++ str "..HEAD") with
      | some out =>
        if trim out = [] then Except.ok []
        else Except.ok (parseCommitHistory env.now (splitOnChar '\n' out))
      | none => Except.error GitError.commitsQueryFailed
  else Except.error (GitError.baseBranchNotFound base)

/-- The per-line loop of `parseStatOutput` (commits.go:158-211): a trimmed
non-empty line containing `|` contributes the counts of the `+` and `-`
glyphs after the bar; the closing `files changed` summary line has no `|`
and contributes nothing. -/
def parseStatLines : List Str → DiffSummary
  | [] => ⟨0, 0, 0, 0, [], []⟩
  | line :: rest =>
    let t := trim line
    if t = [] then parseStatLines rest
    else if hasChar '|' t then
      let parts := splitOnChar '|' t
      if 2 ≤ parts.length then
        let filename := trim (parts.getD 0 [])
        let statsStr := trim (parts.getD 1 [])
        let adds := countChar '+' statsStr
        let dels := countChar '-' statsStr
        let status :=
          if adds > 0 ∧ dels = 0 then ChangeStatus.added
          else if adds = 0 ∧ dels > 0 then ChangeStatus.deleted
          else ChangeStatus.modified
        let s := parseStatLines rest
        { totalFiles := s.totalFiles + 1
          totalLines := s.totalLines + (adds + dels)
          additions := s.additions + adds
          deletions := s.deletions + dels
          fileChanges := ⟨filename, status, adds, dels, false⟩ :: s.fileChanges
          commitHistory := s.commitHistory }
      else parseStatLines rest
    else parseStatLines rest

/-- `parseStatOutput` (commits.go:158-211): `strings.Split` on newlines,
then the per-line loop. -/
def parseStatOutput (output : Str) : DiffSummary :=
  parseStatLines (splitOnChar '\n' output)

/-- `getBranchFileChanges` (analyzer.go:308-325): the `--name-status`
three-dot diff with remote-then-local fallback, parsed by
`parseNameStatus` with the analyzer's own classifiers. -/
def getBranchFileChanges (env : GitEnv) (base : Str) :
    Except GitError (List FileChange) :=
  match env.nameStatusRange (str "origin/" ++ base ++ str "...HEAD") with
  | some out =>
    Except.ok (parseNameStatus env.fileStats isBinaryFile (splitOnChar '\n' out))
  | none =>
    match env.nameStatusRange (base ++ str "...HEAD") with
    | some out =>
      Except.ok (parseNameStatus env.fileStats isBinaryFile (splitOnChar '\n' out))
    | none => Except.error GitError.branchFileChangesFailed

/-- The tail of `GetBranchDiff` once a `--stat` output is in hand: parse
it, then attach detailed file changes, returning the partial summary with
a nil error when the detailed query fails. -/
def withFileChanges (env : GitEnv) (base : Str) (statOut : Str) :
    Except GitError DiffSummary :=
  let summary := parseStatOutput statOut
  match getBranchFileChanges env base with
  | Except.ok fcs => Except.ok { summary with fileChanges := fcs }
  | Except.error _ => Except.ok summary

/-- `GetBranchDiff` (analyzer.go:252-283): the three-dot `--stat` diff
with remote-then-local fallback; when both invocations fail the function
returns the generic wrapped error, never the typed base-branch error. -/
def GetBranchDiff (env : GitEnv) (baseBranch : Str) : Except GitError DiffSummary :=
  let base := resolvedBase baseBranch
  match env.diffStatRange (str "origin/" ++ base ++ str "...HEAD") with
  | some out => withFileChanges env base out
  | none =>
    match env.diffStatRange (base ++ str "...HEAD") with
    | some out => withFileChanges env base out
    | none => Except.error GitError.branchDiffFailed

/-! Spec-side definitions: the quantities the claims speak about, written
from the spec's words, to be compared with the embedded functions. -/

/-- The paths of a change list, in order. -/
def pathsOf (l : List FileChange) : List Str := l.map FileChange.path

/-- The entry a change list holds for a path, if any. -/
def findPath (l : List FileChange) (p : Str) : Option FileChange :=
  l.find? (fun e => e.path == p)

/-- All input occurrences of a path, in supply order. -/
def occurrencesOf (cs : List FileChange) (p : Str) : List FileChange :=
  cs.filter (fun c => c.path == p)

/-- Folding a run of occurrences into an optional accumulated entry; this
is what repeated `fileMap` updates amount to for one key. -/
def mergeOpt : Option FileChange → List FileChange → Option FileChange
  | o, [] => o
  | none, c :: rest => mergeOpt (some c) rest
  | some e, c :: rest => mergeOpt (some (mergeTwo e c)) rest

/-- A log stream presented as commit groups: a header line followed by
its file lines. -/
def renderLog (groups : List (Str × List Str)) : List Str :=
  (groups.map (fun g => g.1 :: g.2)).flatten

/-- A well-formed header line: non-blank, holds the delimiter, and splits
into at least the five fields `%H|%s|%an|%ae|%at`. -/
abbrev headerOK (h : Str) : Prop :=
  trim h ≠ [] ∧ hasChar '|' (trim h) = true ∧ 5 ≤ (splitOnChar '|' (trim h)).length

/-- A well-formed file-path line: non-blank and free of the delimiter. -/
abbrev fileLineOK (f : Str) : Prop :=
  trim f ≠ [] ∧ hasChar '|' (trim f) = false

/-- The record one header line and its file lines must yield. -/
def commitOf (now : Int) (h : Str) (fs : List Str) : CommitInfo :=
  { hash := (splitOnChar '|' (trim h)).getD 0 []
    message := (splitOnChar '|' (trim h)).getD 1 []
    author := (splitOnChar '|' (trim h)).getD 2 []
    email := (splitOnChar '|' (trim h)).getD 3 []
    date := (parseInt? ((splitOnChar '|' (trim h)).getD 4 [])).getD now
    files := fs.map trim }

/-- Two headers, the first followed by three file lines and the second by
one: the stream of the spec's testable property. -/
def exGroups : List (Str × List Str) :=
  [(str "h1|subject one|alice|alice@host|100", [str "f1", str "f2", str "f3"]),
   (str "h2|subject two|bob|bob@host|200", [str "g1"])]

/-- A line of a human stat summary: a per-file bar line carrying a path,
the printed numeric count, and the `+`/`-` glyph bar, or any other line
(blank, or the closing `files changed` summary). -/
inductive StatLine where
  | file (path numStr bar : Str)
  | other (l : Str)

/-- The text of a stat-summary line: `path | N <glyphs>`, the bar
separator surrounded by single blanks. -/
def renderStatLine : StatLine → Str
  | StatLine.file p n b => p ++ ' ' :: '|' :: ' ' :: (n ++ ' ' :: b)
  | StatLine.other l => l

/-- Well-formedness of a stat-summary line: the path holds no bar or
newline, the printed count is a non-empty digit run, the bar is made of
`+` and `-` glyphs only; another line holds no newline and either trims
to nothing or holds no bar. -/
abbrev statLineOK : StatLine → Prop
  | StatLine.file p n b =>
      hasChar '|' p = false ∧ hasChar '\n' p = false ∧
      n ≠ [] ∧ (∀ ch ∈ n, ch.isDigit = true) ∧
      (∀ ch ∈ b, ch = '+' ∨ ch = '-')
  | StatLine.other l => hasChar '\n' l = false ∧ (trim l = [] ∨ hasChar '|' l = false)

instance : DecidablePred statLineOK := fun e => by
  cases e <;> (dsimp only [statLineOK]; infer_instance)

/-- `+` glyphs of a line's bar. -/
def addGlyphs : StatLine → Nat
  | StatLine.file _ _ b => countChar '+' b
  | StatLine.other _ => 0

/-- `-` glyphs of a line's bar. -/
def delGlyphs : StatLine → Nat
  | StatLine.file _ _ b => countChar '-' b
  | StatLine.other _ => 0

/-- Whether a stat-summary line is a per-file line. -/
def isFileLine : StatLine → Bool
  | StatLine.file _ _ _ => true
  | StatLine.other _ => false

/-- The raw text of a stat summary. -/
def renderStat (ls : List StatLine) : Str :=
  joinLines '\n' (ls.map renderStatLine)

/-- A concrete stat summary: two per-file lines and the closing summary
line, with numeric counts that disagree with the glyph counts. -/
def exStatEntries : List StatLine :=
  [StatLine.file (str "a.go") (str "10") (str "+++--"),
   StatLine.file (str "b.png") (str "4") (str "++++"),
   StatLine.other (str " 2 files changed, 7 insertions(+), 2 deletions(-)")]

/-- The log output `GetCommitsSinceBase` ends up parsing: the remote
range when that invocation succeeds, else the local range. -/
def effectiveLog (env : GitEnv) (base : Str) : Option Str :=
  match env.logRange (str "origin/" ++ base ++ str "..HEAD") with
  | some out => some out
  | none => env.logRange (base ++ str "..HEAD")

/-- An environment in which no ref resolves and every query fails. -/
def envC6 : GitEnv :=
  { verifyRef := fun _ => false
    logRange := fun _ => none
    diffStatRange := fun _ => none
    nameStatusRange := fun _ => none
    fileStats := fun _ => (0, 0)
    symbolicRefOriginHead := none
    showRefOriginBranch := fun _ => false
    now := 0 }

/-- The per-file numstat oracle of the spec's aggregator property:
`foo.go = (10, 0)`, `bar.go = (2, 3)`. -/
def exStats (p : Str) : Nat × Nat :=
  if p = str "foo.go" then (10, 0)
  else if p = str "bar.go" then (2, 3)
  else (0, 0)

/-! Lemmas on the string machinery. -/

theorem countChar_cons (c d : Char) (s : Str) :
    countChar c (d :: s) = (if d == c then 1 else 0) + countChar c s := by
  by_cases h : d == c <;> simp [countChar, List.filter_cons, h, Nat.add_comm]

theorem countChar_append (c : Char) (xs ys : Str) :
    countChar c (xs ++ ys) = countChar c xs + countChar c ys := by
  simp [countChar, List.filter_append]

theorem countChar_reverse (c : Char) (s : Str) :
    countChar c s.reverse = countChar c s := by
  simp [countChar, List.filter_reverse]

theorem beq_false_of_space_of_not_space {c d : Char}
    (hd : isSpaceChar d = true) (hc : isSpaceChar c = false) : (d == c) = false := by
  apply beq_eq_false_iff_ne.mpr
  intro e
  subst e
  rw [hd] at hc
  exact Bool.noConfusion hc

theorem countChar_trimLeft (c : Char) (s : Str) (h : isSpaceChar c = false) :
    countChar c (trimLeft s) = countChar c s := by
  induction s with
  | nil => rfl
  | cons d cs ih =>
    by_cases hd : isSpaceChar d
    · rw [trimLeft, if_pos hd, ih, countChar_cons,
        beq_false_of_space_of_not_space hd h]
      simp
    · rw [trimLeft, if_neg hd]

theorem countChar_trimRight (c : Char) (s : Str) (h : isSpaceChar c = false) :
    countChar c (trimRight s) = countChar c s := by
  rw [trimRight, countChar_reverse, countChar_trimLeft c _ h, countChar_reverse]

theorem countChar_trim (c : Char) (s : Str) (h : isSpaceChar c = false) :
    countChar c (trim s) = countChar c s := by
  rw [trim, countChar_trimRight c _ h, countChar_trimLeft c _ h]

theorem hasChar_eq_true_iff (c : Char) (s : Str) : hasChar c s = true ↔ c ∈ s := by
  rw [hasChar, List.any_eq_true]
  constructor
  · rintro ⟨x, hx, hbeq⟩
    rwa [← beq_iff_eq.mp hbeq]
  · intro h
    exact ⟨c, h, beq_self_eq_true c⟩

theorem countChar_pos_iff (c : Char) (s : Str) : 0 < countChar c s ↔ c ∈ s := by
  rw [countChar, List.length_pos]
  constructor
  · intro h
    rcases List.exists_mem_of_ne_nil _ h with ⟨x, hx⟩
    rcases List.mem_filter.mp hx with ⟨hmem, hbeq⟩
    rwa [← beq_iff_eq.mp hbeq]
  · intro h hnil
    have := List.filter_eq_nil_iff.mp hnil c h
    simp at this

theorem mem_trim_iff (c : Char) (s : Str) (h : isSpaceChar c = false) :
    c ∈ trim s ↔ c ∈ s := by
  rw [← countChar_pos_iff, ← countChar_pos_iff, countChar_trim c s h]

theorem hasChar_trim (c : Char) (s : Str) (h : isSpaceChar c = false) :
    hasChar c (trim s) = hasChar c s := by
  rw [Bool.eq_iff_iff, hasChar_eq_true_iff, hasChar_eq_true_iff]
  exact mem_trim_iff c s h

theorem ne_nil_of_hasChar {c : Char} {s : Str} (h : hasChar c s = true) : s ≠ [] := by
  intro e
  subst e
  exact Bool.noConfusion h

theorem trimLeft_append (xs ys : Str) :
    trimLeft (xs ++ ys) =
      if trimLeft xs = [] then trimLeft ys else trimLeft xs ++ ys := by
  induction xs with
  | nil => simp [trimLeft]
  | cons c cs ih =>
    by_cases hc : isSpaceChar c
    · simp only [List.cons_append, trimLeft, hc, if_true]
      exact ih
    · simp [trimLeft, hc]

theorem trimLeft_eq_nil_iff (s : Str) :
    trimLeft s = [] ↔ ∀ c ∈ s, isSpaceChar c = true := by
  induction s with
  | nil => simp [trimLeft]
  | cons c cs ih => by_cases hc : isSpaceChar c <;> simp [trimLeft, hc, ih]

theorem trimRight_eq_nil_iff (s : Str) :
    trimRight s = [] ↔ ∀ c ∈ s, isSpaceChar c = true := by
  rw [trimRight]
  simp [trimLeft_eq_nil_iff]

theorem trimRight_append (xs ys : Str) :
    trimRight (xs ++ ys) =
      if trimRight ys = [] then trimRight xs else xs ++ trimRight ys := by
  rw [trimRight, List.reverse_append, trimLeft_append]
  by_cases h : trimLeft ys.reverse = []
  · rw [if_pos h, if_pos]
    · rfl
    · rw [trimRight, h, List.reverse_nil]
  · rw [if_neg h, if_neg]
    · rw [List.reverse_append, List.reverse_reverse]
      rfl
    · rw [trimRight]
      intro e
      exact h (by simpa using congrArg List.reverse e)

theorem splitOnChar_ne_nil (sep : Char) (s : Str) : splitOnChar sep s ≠ [] := by
  induction s with
  | nil => simp [splitOnChar]
  | cons c cs ih =>
    rw [splitOnChar]
    rcases h : splitOnChar sep cs with _ | ⟨hd, tl⟩
    · simp
    · by_cases hc : c == sep <;> simp [hc]

theorem splitOnChar_of_not_hasChar (sep : Char) (s : Str)
    (h : hasChar sep s = false) : splitOnChar sep s = [s] := by
  induction s with
  | nil => rfl
  | cons c cs ih =>
    rw [hasChar, List.any_cons] at h
    rcases Bool.or_eq_false_iff.mp h with ⟨hc, hcs⟩
    rw [splitOnChar, ih hcs]
    simp [hc]

theorem splitOnChar_append_sep (sep : Char) (A B : Str)
    (h : hasChar sep A = false) :
    splitOnChar sep (A ++ sep :: B) = A :: splitOnChar sep B := by
  induction A with
  | nil =>
    rw [List.nil_append, splitOnChar]
    rcases hB : splitOnChar sep B with _ | ⟨hd, tl⟩
    · exact absurd hB (splitOnChar_ne_nil sep B)
    · simp
  | cons a A' ih =>
    rw [hasChar, List.any_cons] at h
    rcases Bool.or_eq_false_iff.mp h with ⟨ha, hA'⟩
    rw [List.cons_append, splitOnChar, ih (by rwa [hasChar])]
    simp [ha]

theorem splitOnChar_joinLines (sep : Char) (ls : List Str)
    (h : ∀ l ∈ ls, hasChar sep l = false) (hne : ls ≠ []) :
    splitOnChar sep (joinLines sep ls) = ls := by
  induction ls with
  | nil => exact absurd rfl hne
  | cons l rest ih =>
    cases rest with
    | nil => exact splitOnChar_of_not_hasChar _ _ (h l (by simp))
    | cons l2 rest' =>
      rw [joinLines, splitOnChar_append_sep _ _ _ (h l (by simp))]
      rw [ih (fun x hx => h x (by simp [hx])) (by simp)]

/-- C2: for every status listing, a line of at least three characters
places `line[3:]` in exactly the sets its two-character code implies —
Staged iff the first character is neither blank nor `?`, Unstaged iff the
second is neither blank nor `?`, Untracked iff both are `?`; an untracked
code excludes the staged and unstaged codes, while a partially staged
line (`MM`) lands in both Staged and Unstaged. -/
theorem getFileStatuses_spec (lines : List Str) :
    (getFileStatuses lines).staged =
      lines.filterMap
        (fun l => if 3 ≤ l.length ∧ stagedCode l = true then some (l.drop 3) else none) ∧
    (getFileStatuses lines).unstaged =
      lines.filterMap
        (fun l => if 3 ≤ l.length ∧ unstagedCode l = true then some (l.drop 3) else none) ∧
    (getFileStatuses lines).untracked =
      lines.filterMap
        (fun l => if 3 ≤ l.length ∧ untrackedCode l = true then some (l.drop 3) else none) ∧
    (∀ l : Str, untrackedCode l = true → stagedCode l = false ∧ unstagedCode l = false) ∧
    getFileStatuses [str "MM x"] = ⟨[str "x"], [str "x"], []⟩ := by
  have main : ∀ ls : List Str,
      (getFileStatuses ls).staged =
        ls.filterMap
          (fun l => if 3 ≤ l.length ∧ stagedCode l = true then some (l.drop 3) else none) ∧
      (getFileStatuses ls).unstaged =
        ls.filterMap
          (fun l => if 3 ≤ l.length ∧ unstagedCode l = true then some (l.drop 3) else none) ∧
      (getFileStatuses ls).untracked =
        ls.filterMap
          (fun l => if 3 ≤ l.length ∧ untrackedCode l = true then some (l.drop 3) else none) := by
    intro ls
    induction ls with
    | nil => exact ⟨rfl, rfl, rfl⟩
    | cons l rest ih =>
      rcases ih with ⟨h1, h2, h3⟩
      by_cases hlen : l.length < 3
      · have hlen' : ¬ 3 ≤ l.length := by omega
        simp [getFileStatuses, hlen, List.filterMap_cons, hlen', h1, h2, h3]
      · have hlen' : 3 ≤ l.length := by omega
        refine ⟨?_, ?_, ?_⟩ <;>
          · by_cases hs : stagedCode l <;> by_cases hu : unstagedCode l <;>
              by_cases ht : untrackedCode l <;>
              simp [getFileStatuses, hlen, List.filterMap_cons, hlen',
                h1, h2, h3, hs, hu, ht]
  refine ⟨(main lines).1, (main lines).2.1, (main lines).2.2, ?_, by decide⟩
  intro l h
  rw [untrackedCode, Bool.and_eq_true] at h
  rcases h with ⟨h0, h1⟩
  rw [beq_iff_eq] at h0 h1
  constructor
  · rw [stagedCode, h0]
    simp
  · rw [unstagedCode, h1]
    simp

/-! Lemmas towards the merge claims. -/

theorem mergeTwo_path (old c : FileChange) : (mergeTwo old c).path = c.path := rfl

theorem findPath_nil (p : Str) : findPath [] p = none := rfl

theorem findPath_cons (e : FileChange) (l : List FileChange) (p : Str) :
    findPath (e :: l) p = if e.path == p then some e else findPath l p := by
  cases h : e.path == p <;> simp [findPath, List.find?, h]

theorem findPath_insertChange (acc : List FileChange) (c : FileChange) (p : Str) :
    findPath (insertChange acc c) p =
      if p = c.path then
        some (match findPath acc c.path with
              | some old => mergeTwo old c
              | none => c)
      else findPath acc p := by
  induction acc with
  | nil =>
    rw [insertChange, findPath_cons, findPath_nil, findPath_nil]
    by_cases h : p = c.path
    · rw [if_pos h, if_pos (by rw [h, beq_self_eq_true])]
    · rw [if_neg h, if_neg (by simpa [beq_iff_eq] using fun e => h e.symm)]
  | cons e rest ih =>
    by_cases he : e.path == c.path
    · have hpe : e.path = c.path := beq_iff_eq.mp he
      rw [insertChange, if_pos he, findPath_cons, findPath_cons, mergeTwo_path,
        if_pos he]
      by_cases hp : p = c.path
      · rw [if_pos hp, if_pos (by rw [hp, beq_self_eq_true])]
      · rw [if_neg hp, if_neg (by simpa [beq_iff_eq] using fun e => hp e.symm)]
        rw [findPath_cons, if_neg (by simpa [beq_iff_eq, hpe] using fun e => hp e.symm)]
    · rw [insertChange, if_neg he, findPath_cons, ih, findPath_cons, if_neg he]
      by_cases hp : p = c.path
      · have hep : (e.path == p) = false := by
          subst hp
          simpa using he
        rw [if_pos hp, if_pos hp, hep, if_neg (by simp)]
      · rw [if_neg hp, if_neg hp, findPath_cons]

theorem mem_pathsOf_insertChange (acc : List FileChange) (c : FileChange) (p : Str) :
    p ∈ pathsOf (insertChange acc c) ↔ p ∈ pathsOf acc ∨ p = c.path := by
  induction acc with
  | nil => simp [insertChange, pathsOf]
  | cons e rest ih =>
    by_cases he : e.path == c.path
    · have hpe : e.path = c.path := beq_iff_eq.mp he
      rw [insertChange, if_pos he]
      simp only [pathsOf, List.map_cons, List.mem_cons, mergeTwo_path]
      rw [hpe]
      constructor
      · rintro (h | h)
        · exact Or.inr h
        · exact Or.inl (Or.inr h)
      · rintro ((h | h) | h)
        · exact Or.inl h
        · exact Or.inr h
        · exact Or.inl h
    · rw [insertChange, if_neg he]
      simp only [pathsOf, List.map_cons, List.mem_cons] at *
      rw [ih]
      tauto

theorem nodup_pathsOf_insertChange (acc : List FileChange) (c : FileChange)
    (h : (pathsOf acc).Nodup) : (pathsOf (insertChange acc c)).Nodup := by
  induction acc with
  | nil => simp [insertChange, pathsOf]
  | cons e rest ih =>
    have h' : (pathsOf rest).Nodup := (List.nodup_cons.mp h).2
    have hne : e.path ∉ pathsOf rest := (List.nodup_cons.mp h).1
    by_cases he : e.path == c.path
    · have hpe : e.path = c.path := beq_iff_eq.mp he
      rw [insertChange, if_pos he]
      simp only [pathsOf, List.map_cons, mergeTwo_path, List.nodup_cons]
      exact ⟨by rw [← hpe]; exact hne, h'⟩
    · rw [insertChange, if_neg he]
      rw [show pathsOf (e :: insertChange rest c) =
            e.path :: pathsOf (insertChange rest c) from rfl, List.nodup_cons]
      refine ⟨?_, ih h'⟩
      rw [mem_pathsOf_insertChange]
      rintro (hm | hm)
      · exact hne hm
      · exact absurd (beq_iff_eq.mpr hm) (by simpa using he)

theorem occurrencesOf_cons (c : FileChange) (cs : List FileChange) (p : Str) :
    occurrencesOf (c :: cs) p =
      if c.path == p then c :: occurrencesOf cs p else occurrencesOf cs p := by
  rw [occurrencesOf, List.filter_cons]
  by_cases h : c.path == p <;> simp [h, occurrencesOf]

theorem findPath_foldl (cs : List FileChange) (acc : List FileChange) (p : Str) :
    findPath (cs.foldl insertChange acc) p =
      mergeOpt (findPath acc p) (occurrencesOf cs p) := by
  induction cs generalizing acc with
  | nil =>
    rw [List.foldl_nil]
    cases h : findPath acc p <;> simp [h, mergeOpt, occurrencesOf]
  | cons c rest ih =>
    rw [List.foldl_cons, ih, occurrencesOf_cons, findPath_insertChange]
    by_cases hc : c.path == p
    · have hp : p = c.path := (beq_iff_eq.mp hc).symm
      rw [if_pos hc, if_pos hp, ← hp]
      cases hfp : findPath acc p
      · rw [mergeOpt]
      · rw [mergeOpt]
    · have hp : ¬ p = c.path := fun e => by
        rw [e] at hc
        exact hc (beq_self_eq_true c.path)
      rw [if_neg hc, if_neg hp]

theorem mem_pathsOf_foldl (cs : List FileChange) (acc : List FileChange) (p : Str) :
    p ∈ pathsOf (cs.foldl insertChange acc) ↔ p ∈ pathsOf acc ∨ p ∈ pathsOf cs := by
  induction cs generalizing acc with
  | nil => simp [pathsOf]
  | cons c rest ih =>
    rw [List.foldl_cons, ih, mem_pathsOf_insertChange]
    simp only [pathsOf, List.map_cons, List.mem_cons]
    tauto

theorem nodup_pathsOf_foldl (cs : List FileChange) (acc : List FileChange)
    (h : (pathsOf acc).Nodup) : (pathsOf (cs.foldl insertChange acc)).Nodup := by
  induction cs generalizing acc with
  | nil => exact h
  | cons c rest ih => exact ih _ (nodup_pathsOf_insertChange acc c h)

theorem mergeOpt_some (e : FileChange) (l : List FileChange) :
    mergeOpt (some e) l = some (l.foldl mergeTwo e) := by
  induction l generalizing e with
  | nil => rfl
  | cons c rest ih => rw [mergeOpt, ih, List.foldl_cons]

theorem foldl_mergeTwo_additions (l : List FileChange) (e : FileChange) :
    (l.foldl mergeTwo e).additions = e.additions + (l.map FileChange.additions).sum := by
  induction l generalizing e with
  | nil => simp
  | cons c rest ih =>
    rw [List.foldl_cons, ih]
    simp [mergeTwo]
    omega

theorem foldl_mergeTwo_deletions (l : List FileChange) (e : FileChange) :
    (l.foldl mergeTwo e).deletions = e.deletions + (l.map FileChange.deletions).sum := by
  induction l generalizing e with
  | nil => simp
  | cons c rest ih =>
    rw [List.foldl_cons, ih]
    simp [mergeTwo]
    omega

theorem foldl_mergeTwo_isBinary (l : List FileChange) (e : FileChange) :
    (l.foldl mergeTwo e).isBinary = (e.isBinary || l.any FileChange.isBinary) := by
  induction l generalizing e with
  | nil => simp
  | cons c rest ih =>
    rw [List.foldl_cons, ih]
    simp [mergeTwo, Bool.or_assoc]

theorem foldl_mergeTwo_status (l : List FileChange) (e : FileChange) :
    (l.foldl mergeTwo e).status = ((l.getLast?).getD e).status := by
  induction l generalizing e with
  | nil => rfl
  | cons c rest ih =>
    rw [List.foldl_cons, ih, List.getLast?_cons]
    cases rest with
    | nil => rfl
    | cons d rest' =>
      rw [List.getLast?_cons]
      simp [mergeTwo, List.getLastD]

theorem findPath_eq_some_of_mem (l : List FileChange) (e : FileChange)
    (hnd : (pathsOf l).Nodup) (he : e ∈ l) : findPath l e.path = some e := by
  induction l with
  | nil => exact absurd he (List.not_mem_nil e)
  | cons f rest ih =>
    rcases List.mem_cons.mp he with hef | hmem
    · subst hef
      rw [findPath_cons, if_pos (beq_self_eq_true e.path)]
    · have hne : f.path ∉ pathsOf rest := (List.nodup_cons.mp hnd).1
      have hfe : (f.path == e.path) = false := by
        apply beq_eq_false_iff_ne.mpr
        intro hcontra
        exact hne (by rw [hcontra]; exact List.mem_map_of_mem FileChange.path hmem)
      rw [findPath_cons, hfe, if_neg (by simp)]
      exact ih (List.nodup_cons.mp hnd).2 hmem

/-- C1: `mergeFileChanges` returns one entry per distinct input path — no
two output entries share a path and the output paths are exactly the
input paths — and the entry of a path sums the additions and deletions of
all its occurrences, ORs their binary flags, and keeps the status of the
last-supplied occurrence. -/
theorem mergeFileChanges_correct (cs : List FileChange) :
    (pathsOf (mergeFileChanges cs)).Nodup ∧
    (∀ p : Str, p ∈ pathsOf (mergeFileChanges cs) ↔ p ∈ pathsOf cs) ∧
    (∀ e : FileChange, e ∈ mergeFileChanges cs →
      e.additions = ((occurrencesOf cs e.path).map FileChange.additions).sum ∧
      e.deletions = ((occurrencesOf cs e.path).map FileChange.deletions).sum ∧
      e.isBinary = (occurrencesOf cs e.path).any FileChange.isBinary ∧
      some e.status = ((occurrencesOf cs e.path).getLast?).map FileChange.status) := by
  have hnd : (pathsOf (mergeFileChanges cs)).Nodup :=
    nodup_pathsOf_foldl cs [] (by simp [pathsOf])
  refine ⟨hnd, ?_, ?_⟩
  · intro p
    rw [mergeFileChanges, mem_pathsOf_foldl]
    simp [pathsOf]
  · intro e he
    have hfind : findPath (mergeFileChanges cs) e.path = some e :=
      findPath_eq_some_of_mem _ _ hnd he
    rw [mergeFileChanges, findPath_foldl, findPath_nil] at hfind
    cases hocc : occurrencesOf cs e.path with
    | nil =>
      rw [hocc] at hfind
      exact absurd hfind (by rw [mergeOpt]; simp)
    | cons c0 t =>
      rw [hocc, mergeOpt, mergeOpt_some] at hfind
      have he' : e = t.foldl mergeTwo c0 := (Option.some.inj hfind).symm
      refine ⟨?_, ?_, ?_, ?_⟩
      · rw [he', foldl_mergeTwo_additions]
        simp
      · rw [he', foldl_mergeTwo_deletions]
        simp
      · rw [he', foldl_mergeTwo_isBinary]
        simp
      · rw [he', foldl_mergeTwo_status, List.getLast?_cons]
        simp [List.getLastD_eq_getLast?]

theorem insertChange_of_not_mem (acc : List FileChange) (c : FileChange)
    (h : c.path ∉ pathsOf acc) : insertChange acc c = acc ++ [c] := by
  induction acc with
  | nil => rfl
  | cons e rest ih =>
    have hne : (e.path == c.path) = false := by
      apply beq_eq_false_iff_ne.mpr
      intro hcontra
      exact h (by rw [← hcontra]; exact List.mem_map_of_mem FileChange.path (by simp))
    rw [insertChange, hne, if_neg (by simp), List.cons_append]
    rw [ih (fun hm => h (by simp [pathsOf] at hm ⊢; exact Or.inr hm))]

theorem foldl_insertChange_of_nodup (l : List FileChange) (acc : List FileChange)
    (h : (pathsOf (acc ++ l)).Nodup) : l.foldl insertChange acc = acc ++ l := by
  induction l generalizing acc with
  | nil => simp
  | cons c t ih =>
    have hsplit : pathsOf (acc ++ c :: t) = pathsOf acc ++ c.path :: pathsOf t := by
      simp [pathsOf]
    rw [hsplit] at h
    have hcp : c.path ∉ pathsOf acc := by
      intro hm
      exact (List.disjoint_of_nodup_append h) hm (by simp)
    rw [List.foldl_cons, insertChange_of_not_mem acc c hcp, ih]
    · simp
    · have : pathsOf ((acc ++ [c]) ++ t) = pathsOf acc ++ c.path :: pathsOf t := by
        simp [pathsOf]
      rw [this]
      exact h

/-- C9: `mergeFileChanges` is idempotent — applied to its own output it
returns that output unchanged, hence the same paths and identical
per-path status, additions, deletions and binary flags. -/
theorem mergeFileChanges_idempotent (cs : List FileChange) :
    mergeFileChanges (mergeFileChanges cs) = mergeFileChanges cs := by
  have hnd : (pathsOf (mergeFileChanges cs)).Nodup :=
    nodup_pathsOf_foldl cs [] (by simp [pathsOf])
  rw [show mergeFileChanges (mergeFileChanges cs) =
        (mergeFileChanges cs).foldl insertChange [] from rfl]
  rw [foldl_insertChange_of_nodup _ [] (by simpa using hnd)]
  simp

/-- C3: `mapGitStatus` classifies `A`, `M`, `D`, `R`, `C`, `?` as added,
modified, deleted, renamed, copied, untracked, and any other leading code
character as modified; and the name-status lines `A foo.go`, `M bar.go`
with per-file stats `foo.go = (10, 0)`, `bar.go = (2, 3)` produce exactly
the two stated `FileChange` entries. -/
theorem mapGitStatus_parseNameStatus_spec :
    (∀ rest : Str, mapGitStatus ('A' :: rest) = ChangeStatus.added) ∧
    (∀ rest : Str, mapGitStatus ('M' :: rest) = ChangeStatus.modified) ∧
    (∀ rest : Str, mapGitStatus ('D' :: rest) = ChangeStatus.deleted) ∧
    (∀ rest : Str, mapGitStatus ('R' :: rest) = ChangeStatus.renamed) ∧
    (∀ rest : Str, mapGitStatus ('C' :: rest) = ChangeStatus.copied) ∧
    (∀ rest : Str, mapGitStatus ('?' :: rest) = ChangeStatus.untracked) ∧
    (∀ (c : Char) (rest : Str), c ∉ (['A', 'M', 'D', 'R', 'C', '?'] : List Char) →
      mapGitStatus (c :: rest) = ChangeStatus.modified) ∧
    parseNameStatus exStats isBinaryFile [str "A foo.go", str "M bar.go"] =
      [{ path := str "foo.go", status := ChangeStatus.added,
         additions := 10, deletions := 0, isBinary := false },
       { path := str "bar.go", status := ChangeStatus.modified,
         additions := 2, deletions := 3, isBinary := false }] := by
  refine ⟨fun rest => rfl, fun rest => rfl, fun rest => rfl, fun rest => rfl,
    fun rest => rfl, fun rest => rfl, ?_, by decide⟩
  intro c rest hc
  simp only [List.mem_cons, List.not_mem_nil, or_false, not_or] at hc
  rcases hc with ⟨h1, h2, h3, h4, h5, h6⟩
  simp [mapGitStatus, h1, h2, h3, h4, h5, h6]

/-- C10: the repository probe evaluated on each shape of the `.git`
entry: a directory yields true, but a `.git` regular file (linked
worktree) yields false — the first stat branch returns `stat.IsDir()`,
and the worktree-file check below it can never return true. -/
theorem isGitRepository_worktree_file :
    IsGitRepository FsEntry.dir = true ∧
    IsGitRepository FsEntry.file = false ∧
    IsGitRepository FsEntry.absent = false :=
  ⟨rfl, rfl, rfl⟩

/-- C7: `getBaseBranch` resolves, in order, the last component of the
remote's advertised default-branch pointer when it exists, else the first
of main, master, develop whose remote-tracking ref exists, else the
literal `main` — and it never fails. -/
theorem getBaseBranch_spec (env : GitEnv) :
    (∀ out : Str, env.symbolicRefOriginHead = some out →
      getBaseBranch env = Except.ok ((splitOnChar '/' (trim out)).getLastD [])) ∧
    (env.symbolicRefOriginHead = some (str "refs/remotes/origin/main") →
      getBaseBranch env = Except.ok (str "main")) ∧
    (env.symbolicRefOriginHead = none →
      getBaseBranch env = Except.ok
        (if env.showRefOriginBranch (str "main") then str "main"
         else if env.showRefOriginBranch (str "master") then str "master"
         else if env.showRefOriginBranch (str "develop") then str "develop"
         else str "main")) ∧
    (∃ s : Str, getBaseBranch env = Except.ok s) := by
  have hsome : ∀ out : Str, env.symbolicRefOriginHead = some out →
      getBaseBranch env = Except.ok ((splitOnChar '/' (trim out)).getLastD []) := by
    intro out hout
    simp only [getBaseBranch, hout]
    rw [if_pos (List.length_pos.mpr (splitOnChar_ne_nil '/' (trim out)))]
  have hnone : env.symbolicRefOriginHead = none →
      getBaseBranch env = Except.ok
        (if env.showRefOriginBranch (str "main") then str "main"
         else if env.showRefOriginBranch (str "master") then str "master"
         else if env.showRefOriginBranch (str "develop") then str "develop"
         else str "main") := by
    intro hout
    simp only [getBaseBranch, hout, baseBranchFallback, baseBranchCandidates,
      firstExistingCandidate]
    by_cases h1 : env.showRefOriginBranch (str "main") <;>
      by_cases h2 : env.showRefOriginBranch (str "master") <;>
      by_cases h3 : env.showRefOriginBranch (str "develop") <;>
      simp [h1, h2, h3]
  refine ⟨hsome, ?_, hnone, ?_⟩
  · intro h
    rw [hsome _ h]
    rw [show (splitOnChar '/' (trim (str "refs/remotes/origin/main"))).getLastD [] =
      str "main" from by decide]
  · cases hout : env.symbolicRefOriginHead with
    | some out => exact ⟨_, hsome out hout⟩
    | none => exact ⟨_, hnone hout⟩

/-- C5: `GetCommitsSinceBase` fails with the typed base-branch-not-found
error exactly when neither the remote-tracking nor the local ref of the
(defaulted) base verifies; and when a ref verifies and the effective log
output trims to nothing, the call returns the empty list with no error. -/
theorem getCommitsSinceBase_spec (env : GitEnv) (b : Str) :
    ((∃ br : Str,
        GetCommitsSinceBase env b = Except.error (GitError.baseBranchNotFound br)) ↔
      (env.verifyRef (str "origin/" ++ resolvedBase b) = false ∧
       env.verifyRef (resolvedBase b) = false)) ∧
    (∀ out : Str,
      (env.verifyRef (str "origin/" ++ resolvedBase b) = true ∨
       env.verifyRef (resolvedBase b) = true) →
      effectiveLog env (resolvedBase b) = some out → trim out = [] →
      GetCommitsSinceBase env b = Except.ok []) := by
  constructor
  · cases hor : env.verifyRef (str "origin/" ++ resolvedBase b) ||
        env.verifyRef (resolvedBase b) with
    | false =>
      rcases Bool.or_eq_false_iff.mp hor with ⟨hv1, hv2⟩
      have hres : GetCommitsSinceBase env b =
          Except.error (GitError.baseBranchNotFound (resolvedBase b)) := by
        simp only [GetCommitsSinceBase, hv1, hv2]
        rfl
      rw [hres]
      constructor
      · intro _
        exact ⟨hv1, hv2⟩
      · intro _
        exact ⟨resolvedBase b, rfl⟩
    | true =>
      have hno : ∀ br : Str,
          GetCommitsSinceBase env b ≠ Except.error (GitError.baseBranchNotFound br) := by
        intro br
        simp only [GetCommitsSinceBase, hor, if_true]
        cases env.logRange (str "origin/" ++ resolvedBase b ++ str "..HEAD") with
        | some o =>
          by_cases ht : trim o = [] <;> simp [ht]
        | none =>
          cases env.logRange (resolvedBase b ++ str "..HEAD") with
          | some o =>
            by_cases ht : trim o = [] <;> simp [ht]
          | none => simp
      constructor
      · rintro ⟨br, hbr⟩
        exact absurd hbr (hno br)
      · rintro ⟨hv1, hv2⟩
        rw [hv1, hv2] at hor
        exact Bool.noConfusion hor
  · intro out hv hlog htrim
    have hor : (env.verifyRef (str "origin/" ++ resolvedBase b) ||
        env.verifyRef (resolvedBase b)) = true := by
      rcases hv with h | h <;> simp [h]
    simp only [GetCommitsSinceBase, hor, if_true]
    rw [effectiveLog] at hlog
    cases hlo : env.logRange (str "origin/" ++ resolvedBase b ++ str "..HEAD") with
    | some o =>
      rw [hlo] at hlog
      have : o = out := by
        simpa using hlog
      subst this
      simp [htrim]
    | none =>
      rw [hlo] at hlog
      simp only at hlog
      rw [hlog]
      simp [htrim]

/-- C6 counterexample: in an environment where no ref resolves and every
query fails, `GetBranchDiff` fails with the generic branch-diff error,
not the typed base-branch-not-found error the claim states. -/
theorem getBranchDiff_not_typed_cex :
    envC6.verifyRef (str "origin/feature") = false ∧
    envC6.verifyRef (str "feature") = false ∧
    GetBranchDiff envC6 (str "feature") = Except.error GitError.branchDiffFailed ∧
    GetBranchDiff envC6 (str "feature") ≠
      Except.error (GitError.baseBranchNotFound (str "feature")) := by
  refine ⟨rfl, rfl, rfl, ?_⟩
  intro h
  rw [show GetBranchDiff envC6 (str "feature") =
    Except.error GitError.branchDiffFailed from rfl] at h
  exact GitError.noConfusion (Except.error.inj h)

/-- C6 (amended): when both three-dot stat queries fail — as when neither
the remote-tracking nor the local ref of the base exists — `GetBranchDiff`
returns the generic branch-diff query error (not the typed
base-branch-not-found error) and no summary. -/
theorem getBranchDiff_total_failure (env : GitEnv) (b : Str)
    (h1 : env.diffStatRange (str "origin/" ++ resolvedBase b ++ str "...HEAD") = none)
    (h2 : env.diffStatRange (resolvedBase b ++ str "...HEAD") = none) :
    GetBranchDiff env b = Except.error GitError.branchDiffFailed := by
  simp only [GetBranchDiff, h1, h2]

/-- `getBranchDiff_total_failure` discharged at the concrete failing
environment. -/
theorem getBranchDiff_total_failure_witness :
    envC6.diffStatRange
      (str "origin/" ++ resolvedBase (str "feature") ++ str "...HEAD") = none ∧
    envC6.diffStatRange (resolvedBase (str "feature") ++ str "...HEAD") = none ∧
    GetBranchDiff envC6 (str "feature") = Except.error GitError.branchDiffFailed :=
  ⟨rfl, rfl, getBranchDiff_total_failure envC6 (str "feature") rfl rfl⟩

/-! Lemmas towards the commit-history claim. -/

theorem parseCommitLoop_files (now : Int) (fs : List Str) (rest : List Str)
    (commits : List CommitInfo) (c : CommitInfo)
    (h : ∀ f ∈ fs, fileLineOK f) :
    parseCommitLoop now (fs ++ rest) commits (some c) =
      parseCommitLoop now rest commits
        (some { c with files := c.files ++ fs.map trim }) := by
  induction fs generalizing c with
  | nil => simp
  | cons f fs' ih =>
    rcases h f (by simp) with ⟨hne, hnb⟩
    rw [List.cons_append]
    simp only [parseCommitLoop]
    rw [if_neg hne, hnb]
    simp only [Bool.false_eq_true, if_false]
    rw [ih _ (fun x hx => h x (by simp [hx]))]
    simp [List.append_assoc]

theorem parseCommitLoop_groups (now : Int) (groups : List (Str × List Str))
    (commits : List CommitInfo) (cur : Option CommitInfo)
    (h : ∀ g ∈ groups, headerOK g.1 ∧ ∀ f ∈ g.2, fileLineOK f) :
    parseCommitLoop now (renderLog groups) commits cur =
      flushCur commits cur ++ groups.map (fun g => commitOf now g.1 g.2) := by
  induction groups generalizing commits cur with
  | nil =>
    cases cur <;> simp [renderLog, parseCommitLoop, flushCur]
  | cons g gs ih =>
    obtain ⟨⟨hne, hbar, hlen⟩, hf⟩ := h g (by simp)
    rw [show renderLog (g :: gs) = g.1 :: (g.2 ++ renderLog gs) from by
      simp [renderLog]]
    simp only [parseCommitLoop]
    rw [if_neg hne, hbar]
    simp only [if_true]
    rw [if_pos hlen]
    rw [parseCommitLoop_files now g.2 (renderLog gs) _ _ hf]
    rw [ih _ _ (fun x hx => h x (by simp [hx]))]
    simp [flushCur, commitOf, List.append_assoc]

/-- C4: on a log stream of well-formed commit groups — each header line
carrying the five delimiter-joined fields, each following non-blank line
free of the delimiter — every header opens one record with that header's
hash, subject, author, email and timestamp, and the file lines that
follow it land in that record's `files` alone. -/
theorem parseCommitHistory_groups (now : Int) (groups : List (Str × List Str))
    (h : ∀ g ∈ groups, headerOK g.1 ∧ ∀ f ∈ g.2, fileLineOK f) :
    parseCommitHistory now (renderLog groups) =
      groups.map (fun g => commitOf now g.1 g.2) := by
  rw [parseCommitHistory, parseCommitLoop_groups now groups [] none h]
  rfl

/-- `parseCommitHistory_groups` discharged on the spec's concrete stream:
two headers, the first followed by three file lines and the second by
one, giving exactly two records with file-list lengths three and one. -/
theorem parseCommitHistory_groups_witness :
    (∀ g ∈ exGroups, headerOK g.1 ∧ ∀ f ∈ g.2, fileLineOK f) ∧
    parseCommitHistory 0 (renderLog exGroups) =
      exGroups.map (fun g => commitOf 0 g.1 g.2) ∧
    (parseCommitHistory 0 (renderLog exGroups)).map (fun c => c.files.length) =
      [3, 1] :=
  ⟨by decide, parseCommitHistory_groups 0 exGroups (by decide), by decide⟩

/-! Lemmas towards the stat-summary claim. -/

theorem hasChar_cons (c d : Char) (s : Str) :
    hasChar c (d :: s) = ((d == c) || hasChar c s) := by
  simp [hasChar, List.any_cons]

theorem hasChar_append (c : Char) (xs ys : Str) :
    hasChar c (xs ++ ys) = (hasChar c xs || hasChar c ys) := by
  simp [hasChar, List.any_append]

theorem hasChar_eq_false_of_forall (c : Char) (s : Str)
    (h : ∀ x ∈ s, x ≠ c) : hasChar c s = false := by
  induction s with
  | nil => rfl
  | cons d cs ih =>
    rw [hasChar_cons, ih (fun x hx => h x (List.mem_cons_of_mem d hx)),
      beq_eq_false_iff_ne.mpr (h d (by simp))]
    rfl

theorem countChar_eq_zero_of_forall (c : Char) (s : Str)
    (h : ∀ x ∈ s, x ≠ c) : countChar c s = 0 := by
  rw [countChar, List.length_eq_zero, List.filter_eq_nil_iff]
  intro a ha
  simpa [beq_iff_eq] using h a ha

theorem digit_facts (ch : Char) (h : ch.isDigit = true) :
    ch ≠ '\n' ∧ ch ≠ '|' ∧ ch ≠ '+' ∧ ch ≠ '-' ∧ isSpaceChar ch = false := by
  refine ⟨?_, ?_, ?_, ?_, ?_⟩
  · intro e
    rw [e] at h
    exact absurd h (by decide)
  · intro e
    rw [e] at h
    exact absurd h (by decide)
  · intro e
    rw [e] at h
    exact absurd h (by decide)
  · intro e
    rw [e] at h
    exact absurd h (by decide)
  · cases hs : isSpaceChar ch
    · rfl
    · exfalso
      have : ch = ' ' ∨ ch = '\t' ∨ ch = '\n' ∨ ch = '\r' := by
        simpa [isSpaceChar, beq_iff_eq, or_assoc] using hs
      rcases this with e | e | e | e <;>
        (rw [e] at h; exact absurd h (by decide))

theorem glyph_facts (ch : Char) (h : ch = '+' ∨ ch = '-') :
    ch ≠ '\n' ∧ ch ≠ '|' ∧ isSpaceChar ch = false := by
  rcases h with e | e <;> subst e <;> exact ⟨by decide, by decide, by decide⟩

theorem mem_of_mem_trimLeft {c : Char} {s : Str} (h : c ∈ trimLeft s) : c ∈ s := by
  induction s with
  | nil => exact absurd h (List.not_mem_nil c)
  | cons d cs ih =>
    by_cases hd : isSpaceChar d
    · rw [trimLeft, if_pos hd] at h
      exact List.mem_cons_of_mem d (ih h)
    · rwa [trimLeft, if_neg hd] at h

theorem mem_of_mem_trimRight {c : Char} {s : Str} (h : c ∈ trimRight s) : c ∈ s := by
  rw [trimRight, List.mem_reverse] at h
  exact List.mem_reverse.mp (mem_of_mem_trimLeft h)

theorem hasChar_trimLeft_false {c : Char} {s : Str} (h : hasChar c s = false) :
    hasChar c (trimLeft s) = false := by
  cases hc : hasChar c (trimLeft s)
  · rfl
  · rw [← h, ← hc, Bool.eq_iff_iff, hasChar_eq_true_iff, hasChar_eq_true_iff]
    exact ⟨fun hm => mem_of_mem_trimLeft hm, fun hm => by
      rw [hasChar_eq_true_iff] at hc
      exact hc⟩

theorem hasChar_trimRight_false {c : Char} {s : Str} (h : hasChar c s = false) :
    hasChar c (trimRight s) = false := by
  cases hc : hasChar c (trimRight s)
  · rfl
  · exfalso
    rw [hasChar_eq_true_iff] at hc
    have : c ∈ s := mem_of_mem_trimRight hc
    rw [← hasChar_eq_true_iff] at this
    rw [this] at h
    exact Bool.noConfusion h

theorem trimLeft_append_cons (xs : Str) (d : Char) (ys : Str)
    (hd : isSpaceChar d = false) :
    trimLeft (xs ++ d :: ys) = trimLeft xs ++ d :: ys := by
  rw [trimLeft_append]
  by_cases h : trimLeft xs = []
  · rw [if_pos h, h, List.nil_append, trimLeft, if_neg (by simp [hd])]
  · rw [if_neg h]

theorem trimRight_cons_append (d : Char) (ys : Str) (hd : isSpaceChar d = false) :
    trimRight (d :: ys) = d :: trimRight ys := by
  rw [show (d :: ys) = [d] ++ ys from rfl, trimRight_append]
  by_cases h : trimRight ys = []
  · rw [if_pos h, h]
    rw [show trimRight [d] = [d] from by
      rw [trimRight]
      simp [trimLeft, hd]]
  · rw [if_neg h]
    rfl

/-- The analysis of one rendered per-file stat line: it trims to a
non-empty line containing the bar, splits into exactly the path part and
the stats part, and the glyph counts of the trimmed stats part are those
of the bar alone — the printed number contributes nothing. -/
theorem statFileLine_facts (p n b : Str)
    (hp : hasChar '|' p = false) (hne : n ≠ [])
    (hdig : ∀ ch ∈ n, ch.isDigit = true)
    (hbar : ∀ ch ∈ b, ch = '+' ∨ ch = '-') :
    trim (renderStatLine (StatLine.file p n b)) ≠ [] ∧
    hasChar '|' (trim (renderStatLine (StatLine.file p n b))) = true ∧
    splitOnChar '|' (trim (renderStatLine (StatLine.file p n b))) =
      [trimLeft (p ++ [' ']), trimRight (' ' :: (n ++ ' ' :: b))] ∧
    countChar '+' (trim (trimRight (' ' :: (n ++ ' ' :: b)))) = countChar '+' b ∧
    countChar '-' (trim (trimRight (' ' :: (n ++ ' ' :: b)))) = countChar '-' b := by
  have hL : renderStatLine (StatLine.file p n b) =
      (p ++ [' ']) ++ '|' :: (' ' :: (n ++ ' ' :: b)) := by
    rw [renderStatLine]
    simp
  have hnA : hasChar '|' (p ++ [' ']) = false := by
    rw [hasChar_append, hp]
    decide
  have hnY : hasChar '|' (' ' :: (n ++ ' ' :: b)) = false := by
    rw [hasChar_cons, hasChar_append, hasChar_cons]
    rw [hasChar_eq_false_of_forall '|' n
      (fun ch hch => (digit_facts ch (hdig ch hch)).2.1)]
    rw [hasChar_eq_false_of_forall '|' b
      (fun ch hch => (glyph_facts ch (hbar ch hch)).2.1)]
    decide
  have htL : trimLeft ((p ++ [' ']) ++ '|' :: (' ' :: (n ++ ' ' :: b))) =
      trimLeft (p ++ [' ']) ++ '|' :: (' ' :: (n ++ ' ' :: b)) :=
    trimLeft_append_cons _ _ _ (by decide)
  have hYne : trimRight (' ' :: (n ++ ' ' :: b)) ≠ [] := by
    rw [Ne, trimRight_eq_nil_iff]
    intro hall
    obtain ⟨ch, hch⟩ := List.exists_mem_of_ne_nil n hne
    have hmem : ch ∈ ' ' :: (n ++ ' ' :: b) := by
      simp [hch]
    have := hall ch hmem
    rw [(digit_facts ch (hdig ch hch)).2.2.2.2] at this
    exact Bool.noConfusion this
  have htrim : trim (renderStatLine (StatLine.file p n b)) =
      trimLeft (p ++ [' ']) ++ '|' :: trimRight (' ' :: (n ++ ' ' :: b)) := by
    rw [hL, trim, htL, trimRight_append]
    have h1 : trimRight ('|' :: (' ' :: (n ++ ' ' :: b))) =
        '|' :: trimRight (' ' :: (n ++ ' ' :: b)) :=
      trimRight_cons_append _ _ (by decide)
    have h2 : trimRight ('|' :: (' ' :: (n ++ ' ' :: b))) ≠ [] := by
      rw [h1]
      simp
    rw [if_neg h2, h1]
  have hTA : hasChar '|' (trimLeft (p ++ [' '])) = false :=
    hasChar_trimLeft_false hnA
  have hTY : hasChar '|' (trimRight (' ' :: (n ++ ' ' :: b))) = false :=
    hasChar_trimRight_false hnY
  have hsplit : splitOnChar '|' (trim (renderStatLine (StatLine.file p n b))) =
      [trimLeft (p ++ [' ']), trimRight (' ' :: (n ++ ' ' :: b))] := by
    rw [htrim, splitOnChar_append_sep _ _ _ hTA, splitOnChar_of_not_hasChar _ _ hTY]
  have hbarhas : hasChar '|' (trim (renderStatLine (StatLine.file p n b))) = true := by
    rw [htrim, hasChar_append, hasChar_cons]
    simp
  have hcountP : countChar '+' (trim (trimRight (' ' :: (n ++ ' ' :: b)))) =
      countChar '+' b := by
    rw [countChar_trim _ _ (by decide), countChar_trimRight _ _ (by decide)]
    rw [countChar_cons, countChar_append, countChar_cons]
    rw [countChar_eq_zero_of_forall '+' n
      (fun ch hch => (digit_facts ch (hdig ch hch)).2.2.1)]
    simp
  have hcountM : countChar '-' (trim (trimRight (' ' :: (n ++ ' ' :: b)))) =
      countChar '-' b := by
    rw [countChar_trim _ _ (by decide), countChar_trimRight _ _ (by decide)]
    rw [countChar_cons, countChar_append, countChar_cons]
    rw [countChar_eq_zero_of_forall '-' n
      (fun ch hch => (digit_facts ch (hdig ch hch)).2.2.2.1)]
    simp
  exact ⟨ne_nil_of_hasChar hbarhas, hbarhas, hsplit, hcountP, hcountM⟩

theorem parseStatLines_cons_stat (line : Str) (rest : List Str)
    (htne : trim line ≠ []) (hbar : hasChar '|' (trim line) = true)
    (A B : Str) (hsplit : splitOnChar '|' (trim line) = [A, B]) :
    parseStatLines (line :: rest) =
      { totalFiles := (parseStatLines rest).totalFiles + 1
        totalLines := (parseStatLines rest).totalLines +
          (countChar '+' (trim B) + countChar '-' (trim B))
        additions := (parseStatLines rest).additions + countChar '+' (trim B)
        deletions := (parseStatLines rest).deletions + countChar '-' (trim B)
        fileChanges :=
          ⟨trim A,
           if countChar '+' (trim B) > 0 ∧ countChar '-' (trim B) = 0 then
             ChangeStatus.added
           else if countChar '+' (trim B) = 0 ∧ countChar '-' (trim B) > 0 then
             ChangeStatus.deleted
           else ChangeStatus.modified,
           countChar '+' (trim B), countChar '-' (trim B), false⟩ ::
            (parseStatLines rest).fileChanges
        commitHistory := (parseStatLines rest).commitHistory } := by
  simp only [parseStatLines]
  rw [if_neg htne, hbar]
  simp only [if_true]
  rw [hsplit]
  simp [List.getD]

theorem parseStatLines_cons_other (l : Str) (rest : List Str)
    (hok : statLineOK (StatLine.other l)) :
    parseStatLines (renderStatLine (StatLine.other l) :: rest) =
      parseStatLines rest := by
  rcases hok with ⟨-, hl⟩
  rw [renderStatLine]
  rcases hl with he | hbar
  · simp only [parseStatLines]
    rw [if_pos he]
  · have hfalse : hasChar '|' (trim l) = false := by
      rw [hasChar_trim '|' l (by decide)]
      exact hbar
    by_cases ht : trim l = []
    · simp only [parseStatLines]
      rw [if_pos ht]
    · simp only [parseStatLines]
      rw [if_neg ht, hfalse]
      simp

theorem renderStatLine_no_newline (e : StatLine) (hok : statLineOK e) :
    hasChar '\n' (renderStatLine e) = false := by
  cases e with
  | other l => exact hok.1
  | file p n b =>
    rcases hok with ⟨-, hpn, -, hdig, hbar⟩
    rw [renderStatLine, hasChar_append, hasChar_cons, hasChar_cons, hasChar_cons,
      hasChar_append, hasChar_cons]
    rw [hpn,
      hasChar_eq_false_of_forall '\n' n
        (fun ch hch => (digit_facts ch (hdig ch hch)).1),
      hasChar_eq_false_of_forall '\n' b
        (fun ch hch => (glyph_facts ch (hbar ch hch)).1)]
    decide

theorem parseStatLines_map (ls : List StatLine) (hok : ∀ e ∈ ls, statLineOK e) :
    (parseStatLines (ls.map renderStatLine)).totalFiles =
      (ls.filter isFileLine).length ∧
    (parseStatLines (ls.map renderStatLine)).additions = (ls.map addGlyphs).sum ∧
    (parseStatLines (ls.map renderStatLine)).deletions = (ls.map delGlyphs).sum ∧
    (parseStatLines (ls.map renderStatLine)).totalLines =
      (parseStatLines (ls.map renderStatLine)).additions +
      (parseStatLines (ls.map renderStatLine)).deletions := by
  induction ls with
  | nil => exact ⟨rfl, rfl, rfl, rfl⟩
  | cons e es ih =>
    obtain ⟨ih1, ih2, ih3, ih4⟩ := ih (fun x hx => hok x (by simp [hx]))
    cases e with
    | file p n b =>
      obtain ⟨hp, hpn, hne, hdig, hbar⟩ := hok (StatLine.file p n b) (by simp)
      obtain ⟨htne, hbarhas, hsplit, hcp, hcm⟩ := statFileLine_facts p n b hp hne hdig hbar
      rw [List.map_cons,
        parseStatLines_cons_stat (renderStatLine (StatLine.file p n b))
          (es.map renderStatLine) htne hbarhas _ _ hsplit]
      refine ⟨?_, ?_, ?_, ?_⟩
      · simp only [List.filter_cons, isFileLine]
        simp [ih1]
      · simp only [List.map_cons, List.sum_cons, addGlyphs]
        rw [hcp]
        simp [ih2]
        omega
      · simp only [List.map_cons, List.sum_cons, delGlyphs]
        rw [hcm]
        simp [ih3]
        omega
      · simp only []
        rw [hcp, hcm, ih4]
        omega
    | other l =>
      rw [List.map_cons,
        parseStatLines_cons_other l (es.map renderStatLine)
          (hok (StatLine.other l) (by simp))]
      refine ⟨?_, ?_, ?_, ?_⟩
      · simp only [List.filter_cons, isFileLine]
        simp [ih1]
      · simp [addGlyphs, ih2]
      · simp [delGlyphs, ih3]
      · exact ih4

/-- C8: on a stat summary in the `path | N <glyphs>` form,
`parseStatOutput` counts one file per bar line, sums the `+` glyphs into
`additions` and the `-` glyphs into `deletions`, keeps
`totalLines = additions + deletions`, and never uses the printed numeric
count `N` — the result is the same for any digit run in its place. -/
theorem parseStatOutput_glyphs (entries : List StatLine)
    (hok : ∀ e ∈ entries, statLineOK e) :
    (parseStatOutput (renderStat entries)).totalFiles =
      (entries.filter isFileLine).length ∧
    (parseStatOutput (renderStat entries)).additions =
      (entries.map addGlyphs).sum ∧
    (parseStatOutput (renderStat entries)).deletions =
      (entries.map delGlyphs).sum ∧
    (parseStatOutput (renderStat entries)).totalLines =
      (parseStatOutput (renderStat entries)).additions +
      (parseStatOutput (renderStat entries)).deletions := by
  cases entries with
  | nil => exact ⟨rfl, rfl, rfl, rfl⟩
  | cons e0 es =>
    have hsplit : splitOnChar '\n' (renderStat (e0 :: es)) =
        (e0 :: es).map renderStatLine := by
      rw [renderStat]
      apply splitOnChar_joinLines
      · intro l hl
        rcases List.mem_map.mp hl with ⟨x, hx, hxl⟩
        rw [← hxl]
        exact renderStatLine_no_newline x (hok x hx)
      · simp
    rw [parseStatOutput, hsplit]
    exact parseStatLines_map (e0 :: es) hok

/-- `parseStatOutput_glyphs` discharged on a concrete summary whose
printed numeric counts disagree with the glyph counts. -/
theorem parseStatOutput_glyphs_witness :
    (∀ e ∈ exStatEntries, statLineOK e) ∧
    ((parseStatOutput (renderStat exStatEntries)).totalFiles =
        (exStatEntries.filter isFileLine).length ∧
      (parseStatOutput (renderStat exStatEntries)).additions =
        (exStatEntries.map addGlyphs).sum ∧
      (parseStatOutput (renderStat exStatEntries)).deletions =
        (exStatEntries.map delGlyphs).sum ∧
      (parseStatOutput (renderStat exStatEntries)).totalLines =
        (parseStatOutput (renderStat exStatEntries)).additions +
        (parseStatOutput (renderStat exStatEntries)).deletions) ∧
    (parseStatOutput (renderStat exStatEntries)).additions = 7 ∧
    (parseStatOutput (renderStat exStatEntries)).deletions = 2 ∧
    (parseStatOutput (renderStat exStatEntries)).totalFiles = 2 :=
  ⟨by decide, parseStatOutput_glyphs exStatEntries (by decide),
    by decide, by decide, by decide⟩

end AutoPr
